import Mathlib

/-!
Verification of the LinkedIn post generator (src/app.py) against its
natural-language specification.

The development shallowly embeds the core of the program:

* `clean_output` — the guardrail text filter (app.py lines 47-52):
  for each word `w` in the banned list, Python runs
  `re.sub(rf"\b{w}\b", "[removed]", text, flags=re.IGNORECASE)`.
  The regex scanner is modelled on `List Char` by `subAuxF` (left-to-right,
  leftmost-match, non-overlapping, exactly re.sub's strategy for a pattern
  that is a literal word framed by word boundaries).  Word characters are
  the ASCII core of Python's `\w` ([0-9A-Za-z_]); `Char.toLower` agrees
  with Python `re.IGNORECASE` on this fragment.

* `split_posts` — the post splitter (app.py lines 86-88):
  `re.split(r"\n\s*\d+[\.\)]", posts_raw)` followed by
  `[p.strip() for p in posts if len(p.strip()) > 30]` and `posts[:post_count]`.
  For this pattern the regex engine's backtracking is vacuous (a whitespace
  character is never a digit, a digit is never `.` or `)`), so a match is
  exactly: a newline, a maximal run of whitespace, a maximal nonempty run of
  digits, then `.` or `)`; `matchMarker` implements that directly.

* `generate_posts` — the pipeline (app.py lines 57-108).  The OpenAI client
  is an external collaborator; it is modelled as a parameter
  `complete : String → Except String String` (a call either returns text or
  raises).  Wall-clock latency (`time.time()`) is not modelled; no claim
  depends on it.

* `handle_generate` / `runAll` / `listPast` — the button handler
  (app.py lines 113-149) and the session-history view
  `st.session_state.history[:-1]` (line 156).

Fueled recursion (`subAuxF`, `splitAuxF`) is only a totality device: the
fuel is fixed to the input length by the wrappers `subL`/`splitL`, and the
lemmas `subL_replace`/`subL_copy`/`splitL_cons` recover the natural
recursion equations, so every later proof is against re.sub/re.split's
actual scanning behaviour.
-/

/-- ASCII core of Python's regex word-character class `\w`: `[0-9A-Za-z_]`. -/
def isWordChar (c : Char) : Bool :=
  (48 ≤ c.toNat && c.toNat ≤ 57) || (65 ≤ c.toNat && c.toNat ≤ 90) ||
    (97 ≤ c.toNat && c.toNat ≤ 122) || c.toNat == 95

/-- ASCII core of Python's regex whitespace class `\s` (also the set used by
`str.strip()`): space, tab, newline, vertical tab, form feed, carriage return. -/
def isSpaceChar (c : Char) : Bool :=
  c.toNat == 32 || c.toNat == 9 || c.toNat == 10 || c.toNat == 11 ||
    c.toNat == 12 || c.toNat == 13

/-- ASCII core of Python's regex digit class `\d`: `[0-9]`. -/
def isDigitChar (c : Char) : Bool :=
  48 ≤ c.toNat && c.toNat ≤ 57

/-- The literal replacement text of the guardrail filter (app.py line 51). -/
def placeholderL : List Char := "[removed]".data

/-- Case-insensitive literal-word matching at the head of a list:
`stripPrefixCI w s = some t` iff the first `w.length` characters of `s`
match `w` up to `Char.toLower` (the banned words are lower-case ASCII, so
this is `re.IGNORECASE` matching of the literal `w`), and `t` is the rest. -/
def stripPrefixCI : List Char → List Char → Option (List Char)
  | [], s => some s
  | _ :: _, [] => none
  | c :: w, d :: s => if d.toLower = c then stripPrefixCI w s else none

/-- The word-boundary test `\b` after a match: the next character (if any)
must not be a word character.  (The banned words consist of word characters,
so `\b` there is exactly this test.) -/
def boundaryAfter : List Char → Bool
  | [] => true
  | c :: _ => !isWordChar c

/-- `startMatch w p l = true` iff the regex `\b w \b` (IGNORECASE) matches at
the very start of `l`, where `p` records whether the character preceding `l`
in the full text is a word character (`p = false` at the start of the text). -/
def startMatch (w : List Char) (p : Bool) (l : List Char) : Bool :=
  !p && (match stripPrefixCI w l with
         | some t => boundaryAfter t
         | none => false)

/-- One `re.sub(rf"\b{w}\b", "[removed]", ., re.IGNORECASE)` pass, scanning
left to right with fuel (the fuel is a totality device; `subL` fixes it to
the input length, which `subL_replace`/`subL_copy` prove sufficient).
On a match the scanner emits the placeholder and resumes after the matched
word — whose last character is a word character, hence `prevIsWord := true`,
exactly as the regex engine sees the original text. -/
def subAuxF (w : List Char) : Nat → Bool → List Char → List Char
  | 0, _, s => s
  | _ + 1, _, [] => []
  | fuel + 1, prevIsWord, c :: rest =>
    match stripPrefixCI w (c :: rest) with
    | some tail =>
      if 0 < w.length && !prevIsWord && boundaryAfter tail then
        placeholderL ++ subAuxF w fuel true tail
      else
        c :: subAuxF w fuel (isWordChar c) rest
    | none => c :: subAuxF w fuel (isWordChar c) rest

/-- `re.sub(rf"\b{w}\b", "[removed]", ., re.IGNORECASE)` on character lists,
with `p` the word-character status of the preceding character. -/
def subL (w : List Char) (p : Bool) (s : List Char) : List Char :=
  subAuxF w s.length p s

/-- One banned-word substitution pass on strings (one iteration of the loop
in app.py lines 50-51). -/
def subWordS (w text : String) : String :=
  ⟨subL w.data false text.data⟩

/-- app.py line 49: the banned-word list of the guardrail filter. -/
def banned_words : List String := ["fuck", "shit", "hate", "kill"]

/-- app.py lines 47-52: `clean_output` — the guardrail filter, one
case-insensitive whole-word `re.sub` per banned word, in list order. -/
def clean_output (text : String) : String :=
  banned_words.foldl (fun t w => subWordS w t) text

/-- Scanner for the specification predicate "`l` contains a case-insensitive
whole-word occurrence of `w`", with `p` the word-character status of the
preceding character. -/
def hasWholeWordAux (w : List Char) (p : Bool) : List Char → Bool
  | [] => false
  | c :: rest => startMatch w p (c :: rest) || hasWholeWordAux w (isWordChar c) rest

/-- "`text` contains a case-insensitive whole-word occurrence of `w`"
(the property the spec's Text Filter section quantifies over). -/
def hasWholeWord (w text : String) : Bool :=
  hasWholeWordAux w.data false text.data

/-- A match of `r"\n\s*\d+[\.\)]"` at the head of `l`: a newline, then the
maximal run of whitespace, then a maximal nonempty run of digits, then `.`
or `)`.  Returns the remainder after the match.  (Backtracking is vacuous
for this pattern: a released `\s*` character is whitespace, never the digit
`\d+` needs, and a released `\d+` character is a digit, never `.` or `)`.) -/
def matchMarker (l : List Char) : Option (List Char) :=
  match l with
  | c :: rest =>
    if c = '\n' then
      match rest.dropWhile isSpaceChar with
      | d :: ds =>
        if isDigitChar d then
          match (d :: ds).dropWhile isDigitChar with
          | t :: rem => if t = '.' || t = ')' then some rem else none
          | [] => none
        else none
      | [] => none
    else none
  | [] => none

/-- `re.split(r"\n\s*\d+[\.\)]", .)` scanner with fuel (a totality device;
`splitL` fixes it to the input length, shown sufficient by `splitL_cons`).
`cur` is the current segment accumulated in reverse. -/
def splitAuxF : Nat → List Char → List Char → List (List Char)
  | 0, cur, _ => [cur.reverse]
  | _ + 1, cur, [] => [cur.reverse]
  | fuel + 1, cur, c :: rest =>
    match matchMarker (c :: rest) with
    | some rem => cur.reverse :: splitAuxF fuel [] rem
    | none => splitAuxF fuel (c :: cur) rest

/-- `re.split(r"\n\s*\d+[\.\)]", .)` on character lists. -/
def splitL (cur l : List Char) : List (List Char) :=
  splitAuxF l.length cur l

/-- app.py line 86: `posts = re.split(r"\n\s*\d+[\.\)]", posts_raw)`. -/
def re_split_numbered (s : String) : List String :=
  (splitL [] s.data).map (fun l => ⟨l⟩)

/-- Python `str.strip()` on character lists (ASCII whitespace). -/
def stripL (l : List Char) : List Char :=
  ((l.dropWhile isSpaceChar).reverse.dropWhile isSpaceChar).reverse

/-- Python `str.strip()` on strings. -/
def py_strip (s : String) : String :=
  ⟨stripL s.data⟩

/-- app.py line 87: `posts = [p.strip() for p in posts if len(p.strip()) > 30]`. -/
def kept_fragments (posts_raw : String) : List String :=
  ((re_split_numbered posts_raw).map py_strip).filter (fun p => 30 < p.length)

/-- app.py lines 86-88: the Post Splitter — split on numbered markers, strip,
discard fragments of length ≤ 30, truncate to `post_count`. -/
def split_posts (posts_raw : String) (post_count : Nat) : List String :=
  (kept_fragments posts_raw).take post_count

/-- Python `str.lower()` (ASCII fragment, matching `Char.toLower`). -/
def py_lower (s : String) : String := s.map Char.toLower

/-- Python `str(b)` for a bool: `"True"` / `"False"` (f-string interpolation
of the checkbox flags into the extras prompt). -/
def py_bool (b : Bool) : String := if b then "True" else "False"

/-- app.py lines 61-66: the plan-step prompt (an f-string; `audience or
'a general professional audience'` substitutes the default when the audience
string is empty/falsy). -/
def plan_prompt (topic tone audience language : String) (post_count : Nat) : String :=
  "\n    You are an expert LinkedIn strategist. \n    First, outline a brief plan for "
    ++ toString post_count ++ " " ++ py_lower tone ++ " posts in " ++ language
    ++ ", \n    about \"" ++ topic ++ "\", targeting "
    ++ (if audience = "" then "a general professional audience" else audience)
    ++ ".\n    Each plan should describe style, structure, and key points.\n    "

/-- app.py lines 73-79: the draft-step prompt, embedding the plan verbatim. -/
def gen_prompt (plan length tone language : String) (post_count : Nat) : String :=
  "\n    Based on this plan:\n" ++ plan ++ "\n\n    Write " ++ toString post_count
    ++ " LinkedIn posts in " ++ language ++ ".\n    Keep them " ++ py_lower length
    ++ " and " ++ py_lower tone
    ++ ".\n    Each post should be natural, engaging, and professional.\n    Do not repeat wording.\n    "

/-- app.py lines 93-98: the extras-step prompt (the flags are interpolated
as Python booleans into the text). -/
def extras_prompt (topic : String) (hashtags cta : Bool) : String :=
  "\n        For the topic \"" ++ topic ++ "\", suggest:\n        - Relevant hashtags (if "
    ++ py_bool hashtags ++ ")\n        - A short call-to-action line (if "
    ++ py_bool cta ++ ")\n        Output clearly.\n        "

/-- app.py lines 57-108: `generate_posts`.  The text-generation collaborator
is the parameter `complete`: a call either returns the completion text
(`Except.ok`) or raises (`Except.error`), and any raise propagates out of
the function, as in Python.  Wall-clock latency is not modelled.  Returned
value: `(posts, extras)`. -/
def generate_posts (complete : String → Except String String)
    (topic tone audience length language : String) (hashtags cta : Bool)
    (post_count : Nat) : Except String (List String × String) := do
  let plan ← complete (plan_prompt topic tone audience language post_count)
  let posts_raw ← complete (gen_prompt plan length tone language post_count)
  let posts := split_posts posts_raw post_count
  let extras ← if hashtags || cta then complete (extras_prompt topic hashtags cta)
               else pure ""
  let posts := posts.map clean_output
  pure (posts, extras)

/-- The inputs the sidebar hands to one button press (the fields of
`generate_posts`' call site, app.py lines 119-121). -/
structure GenRequest where
  topic : String
  tone : String
  audience : String
  length : String
  language : String
  hashtags : Bool
  cta : Bool
  post_count : Nat

/-- What one button press surfaces to the user: the validation warning
(app.py line 115), the rendered result (lines 127-146), or the caught
error (line 149). -/
inductive RunOutcome where
  | warned : RunOutcome
  | ok : List String → String → RunOutcome
  | errored : String → RunOutcome
deriving DecidableEq

/-- app.py lines 113-149: the generate-button handler.  Empty topic ⇒
warning, no pipeline call; pipeline error ⇒ message, history untouched;
success ⇒ `st.session_state.history.append(posts)` (line 122) and the
result is displayed.  Returns the new history and the surfaced outcome. -/
def handle_generate (complete : String → Except String String) (r : GenRequest)
    (history : List (List String)) : List (List String) × RunOutcome :=
  if r.topic = "" then (history, RunOutcome.warned)
  else
    match generate_posts complete r.topic r.tone r.audience r.length r.language
        r.hashtags r.cta r.post_count with
    | Except.error e => (history, RunOutcome.errored e)
    | Except.ok (posts, extras) => (history ++ [posts], RunOutcome.ok posts extras)

/-- A sequence of button presses threading the session history. -/
def runAll (complete : String → Except String String) (reqs : List GenRequest)
    (history : List (List String)) : List (List String) :=
  reqs.foldl (fun h r => (handle_generate complete r h).1) history

/-- app.py line 156: the history view `st.session_state.history[:-1]` —
every stored entry except the most recent one. -/
def listPast (history : List (List String)) : List (List String) :=
  history.dropLast

/-- The word-character status of the character preceding the continuation,
after scanning `l` starting from status `p`. -/
def scanPrev (p : Bool) (l : List Char) : Bool :=
  l.foldl (fun _ c => isWordChar c) p

/-- One button press with nonempty topic and a successful run (any run). -/
def runSuccess (complete : String → Except String String) (r : GenRequest) : Prop :=
  ¬r.topic = "" ∧ ∃ ps ex, generate_posts complete r.topic r.tone r.audience r.length
    r.language r.hashtags r.cta r.post_count = Except.ok (ps, ex)

/-! ### Sanity checks of the embedding on concrete inputs -/

example : hasWholeWord "shit" "no Shit here" = true := by decide
example : hasWholeWord "shit" "bullshit here" = false := by decide
example : subWordS "shit" "no Shit here" = "no [removed] here" := by decide
example : subWordS "kill" "skill kill" = "skill [removed]" := by decide

example : re_split_numbered "intro\n1. alpha\n 2) beta" = ["intro", " alpha", " beta"] := by
  decide
example : matchMarker "\n  \n12) x".data = some " x".data := by decide
example :
    split_posts "head\n1. aaaaaaaaaaaaaaaaaaaaaaaaaaaaaaaaaaa\n2. bbbbbbbbbbbbbbbbbbbbbbbbbbbbbbbbbbb" 5
      = ["aaaaaaaaaaaaaaaaaaaaaaaaaaaaaaaaaaa", "bbbbbbbbbbbbbbbbbbbbbbbbbbbbbbbbbbb"] := by
  decide

example :
    generate_posts (fun _ => Except.ok "x\n1. aaaaaaaaaaaaaaaaaaaaaaaaaaaaaaaaaaa shit") "t"
      "Professional" "" "Short" "English" true false 3
      = Except.ok (["aaaaaaaaaaaaaaaaaaaaaaaaaaaaaaaaaaa [removed]"],
          "x\n1. aaaaaaaaaaaaaaaaaaaaaaaaaaaaaaaaaaa shit") := rfl

/-! ### Character-level lemmas -/

theorem isWordChar_of_lower_letter {c : Char} (h1 : 97 ≤ c.toNat) (h2 : c.toNat ≤ 122) :
    isWordChar c = true := by
  simp only [isWordChar, Bool.or_eq_true, Bool.and_eq_true, decide_eq_true_eq, beq_iff_eq]
  omega

/-- If `c` is a word character and `d` lowercases to `c`, then `d` is a word
character (so IGNORECASE matching of a word character only ever matches word
characters). -/
theorem isWordChar_of_toLower_eq {c d : Char} (hc : isWordChar c = true)
    (h : d.toLower = c) : isWordChar d = true := by
  have h2 : (if d.toNat ≥ 65 ∧ d.toNat ≤ 90 then Char.ofNat (d.toNat + 32) else d) = c := h
  clear h
  split at h2
  · rename_i hd
    simp only [Char.toNat] at hd
    simp only [isWordChar, Bool.or_eq_true, Bool.and_eq_true, decide_eq_true_eq, beq_iff_eq,
      Char.toNat]
    omega
  · exact h2 ▸ hc

/-! ### `stripPrefixCI` structure lemmas -/

theorem stripPrefixCI_length : ∀ (w s t : List Char), stripPrefixCI w s = some t →
    t.length + w.length = s.length
  | [], s, t, h => by
      simp only [stripPrefixCI, Option.some.injEq] at h
      subst h; simp
  | c :: w, [], t, h => by simp [stripPrefixCI] at h
  | c :: w, d :: s, t, h => by
      rw [stripPrefixCI] at h
      by_cases hd : d.toLower = c
      · rw [if_pos hd] at h
        have := stripPrefixCI_length w s t h
        simp only [List.length_cons]
        omega
      · rw [if_neg hd] at h
        exact absurd h (by simp)

/-- A successful case-insensitive match decomposes the input as the matched
prefix `m` followed by the remainder; `m` re-matches against any
continuation, and consists of word characters whenever `w` is a lower-case
ASCII word. -/
theorem stripPrefixCI_decomp : ∀ (w s t : List Char), stripPrefixCI w s = some t →
    ∃ m, s = m ++ t ∧ m.length = w.length ∧
      (∀ z, stripPrefixCI w (m ++ z) = some z) ∧
      ((∀ c ∈ w, 97 ≤ c.toNat ∧ c.toNat ≤ 122) → ∀ d ∈ m, isWordChar d = true)
  | [], s, t, h => by
      simp only [stripPrefixCI, Option.some.injEq] at h
      subst h
      exact ⟨[], rfl, rfl, fun z => rfl, fun _ d hd => absurd hd (List.not_mem_nil d)⟩
  | c :: w, [], t, h => by simp [stripPrefixCI] at h
  | c :: w, d :: s, t, h => by
      rw [stripPrefixCI] at h
      by_cases hd : d.toLower = c
      · rw [if_pos hd] at h
        obtain ⟨m, hs, hlen, hre, hword⟩ := stripPrefixCI_decomp w s t h
        refine ⟨d :: m, by simp [hs], by simp [hlen], ?_, ?_⟩
        · intro z
          rw [List.cons_append, stripPrefixCI, if_pos hd]
          exact hre z
        · intro hg e he
          rcases List.mem_cons.mp he with rfl | he
          · have hc := hg c (List.mem_cons_self c w)
            exact isWordChar_of_toLower_eq (isWordChar_of_lower_letter hc.1 hc.2) hd
          · exact hword (fun x hx => hg x (List.mem_cons_of_mem c hx)) e he
      · rw [if_neg hd] at h
        exact absurd h (by simp)

theorem stripPrefixCI_cons_ne {w : List Char} {c w0 : Char} (h : ¬c.toLower = w0)
    (l : List Char) : stripPrefixCI (w0 :: w) (c :: l) = none := by
  rw [stripPrefixCI, if_neg h]

/-! ### Recursion equations for `subL` -/

theorem subAuxF_fuel_eq (w : List Char) : ∀ (f g : Nat) (p : Bool) (s : List Char),
    s.length ≤ f → s.length ≤ g → subAuxF w f p s = subAuxF w g p s := by
  intro f
  induction f with
  | zero =>
    intro g p s hf _
    have : s = [] := List.length_eq_zero.mp (Nat.le_zero.mp hf)
    subst this
    cases g <;> rfl
  | succ f ih =>
    intro g p s hf hg
    match s with
    | [] => cases g <;> rfl
    | c :: rest =>
      match g with
      | 0 => simp at hg
      | g + 1 =>
        have hrf : rest.length ≤ f := by simp only [List.length_cons] at hf; omega
        have hrg : rest.length ≤ g := by simp only [List.length_cons] at hg; omega
        simp only [subAuxF]
        cases hst : stripPrefixCI w (c :: rest) with
        | none => exact congrArg (c :: ·) (ih g (isWordChar c) rest hrf hrg)
        | some tail =>
          dsimp only
          by_cases hcond : (decide (0 < w.length) && !p && boundaryAfter tail) = true
          · rw [if_pos hcond, if_pos hcond]
            have hw : 0 < w.length := by
              simp only [Bool.and_eq_true, decide_eq_true_eq] at hcond
              exact hcond.1.1
            have hlen := stripPrefixCI_length w (c :: rest) tail hst
            simp only [List.length_cons] at hlen
            have ht : tail.length ≤ f := by omega
            have ht2 : tail.length ≤ g := by omega
            exact congrArg (placeholderL ++ ·) (ih g true tail ht ht2)
          · rw [if_neg hcond, if_neg hcond]
            exact congrArg (c :: ·) (ih g (isWordChar c) rest hrf hrg)

theorem subL_nil (w : List Char) (p : Bool) : subL w p [] = [] := rfl

/-- Recursion equation of the re.sub scan, match case: at a whole-word match
the scanner emits the placeholder and resumes after the matched word with
`prevIsWord = true` (the word's last character is a word character). -/
theorem subL_replace {w : List Char} (hw : w ≠ []) {p : Bool} {c : Char} {rest tail : List Char}
    (hm : stripPrefixCI w (c :: rest) = some tail) (hb : (!p && boundaryAfter tail) = true) :
    subL w p (c :: rest) = placeholderL ++ subL w true tail := by
  have hlen := stripPrefixCI_length w (c :: rest) tail hm
  simp only [List.length_cons] at hlen
  have hwpos : 0 < w.length := List.length_pos.mpr hw
  have htail : tail.length ≤ rest.length := by omega
  show subAuxF w (rest.length + 1) p (c :: rest) = _
  simp only [subAuxF, hm]
  rw [if_pos (by simp only [Bool.and_eq_true, decide_eq_true_eq] at hb ⊢; exact ⟨⟨hwpos, hb.1⟩, hb.2⟩)]
  exact congrArg (placeholderL ++ ·) (subAuxF_fuel_eq w rest.length tail.length true tail htail le_rfl)

/-- Recursion equation of the re.sub scan, no-match case: the character is
copied and the scan continues with its word-character status. -/
theorem subL_copy {w : List Char} {p : Bool} {c : Char} {rest : List Char}
    (hsm : startMatch w p (c :: rest) = false) :
    subL w p (c :: rest) = c :: subL w (isWordChar c) rest := by
  show subAuxF w (rest.length + 1) p (c :: rest) = _
  simp only [subAuxF]
  cases hst : stripPrefixCI w (c :: rest) with
  | none => rfl
  | some tail =>
    dsimp only
    rw [if_neg]
    · rfl
    · intro hcond
      simp only [Bool.and_eq_true, decide_eq_true_eq] at hcond
      simp only [startMatch, hst] at hsm
      rw [hcond.1.2, hcond.2] at hsm
      simp at hsm

/-! ### Scanning-state lemmas -/

theorem scanPrev_append (p : Bool) (l1 l2 : List Char) :
    scanPrev p (l1 ++ l2) = scanPrev (scanPrev p l1) l2 := by
  simp [scanPrev]

theorem scanPrev_placeholder (p : Bool) : scanPrev p placeholderL = false := by
  cases p <;> rfl

/-- Scanning a block in which no match can start (every character fails the
first pattern character) just threads the previous-character status. -/
theorem hasWholeWordAux_append_nomatch {w0 : Char} {w' : List Char} :
    ∀ (l : List Char), (∀ c ∈ l, ¬c.toLower = w0) → ∀ (p : Bool) (X : List Char),
      hasWholeWordAux (w0 :: w') p (l ++ X) = hasWholeWordAux (w0 :: w') (scanPrev p l) X
  | [], _, p, X => rfl
  | c :: l, h, p, X => by
      rw [List.cons_append, hasWholeWordAux, startMatch,
        stripPrefixCI_cons_ne (h c (List.mem_cons_self c l)) (l ++ X)]
      simp only [Bool.and_false, Bool.false_or]
      exact hasWholeWordAux_append_nomatch l (fun d hd => h d (List.mem_cons_of_mem c hd))
        (isWordChar c) X

/-- If a text has no whole-word occurrence, neither has any suffix of it
(scanned with the matching previous-character status). -/
theorem hasWholeWordAux_suffix_false {w : List Char} :
    ∀ (l : List Char) (p : Bool) (X : List Char),
      hasWholeWordAux w p (l ++ X) = false → hasWholeWordAux w (scanPrev p l) X = false
  | [], p, X, h => h
  | c :: l, p, X, h => by
      rw [List.cons_append, hasWholeWordAux, Bool.or_eq_false_iff] at h
      exact hasWholeWordAux_suffix_false l (isWordChar c) X h.2

/-- A substitution pass that starts in prev-is-word-char state copies
word characters verbatim. -/
theorem subL_append_word {v : List Char} :
    ∀ (u : List Char), (∀ c ∈ u, isWordChar c = true) → ∀ (t : List Char),
      subL v true (u ++ t) = u ++ subL v true t
  | [], _, t => rfl
  | c :: u, h, t => by
      rw [List.cons_append, subL_copy (by simp [startMatch]),
        h c (List.mem_cons_self c u),
        subL_append_word u (fun d hd => h d (List.mem_cons_of_mem c hd)) t]
      rfl

/-- A failed case-insensitive match of a lower-case ASCII word still fails
after any substitution pass whose scan is in prev-is-word-char state (such a
scan copies characters until it leaves the current word). -/
theorem stripPrefixCI_subL_none {v : List Char} :
    ∀ (s u : List Char), u ≠ [] → (∀ c ∈ u, 97 ≤ c.toNat ∧ c.toNat ≤ 122) →
      stripPrefixCI u s = none → stripPrefixCI u (subL v true s) = none := by
  intro s
  induction s with
  | nil =>
    intro u hne _ _
    rw [subL_nil]
    match u, hne with
    | c :: u, _ => rfl
  | cons d rest ih =>
    intro u hne hg hn
    match u, hne with
    | u0 :: u', _ =>
      rw [subL_copy (by simp [startMatch])]
      by_cases hd : d.toLower = u0
      · have hu0 := hg u0 (List.mem_cons_self u0 u')
        have hwd : isWordChar d = true :=
          isWordChar_of_toLower_eq (isWordChar_of_lower_letter hu0.1 hu0.2) hd
        rw [hwd]
        rw [stripPrefixCI, if_pos hd] at hn
        have hu' : u' ≠ [] := by
          intro h
          rw [h] at hn
          simp [stripPrefixCI] at hn
        rw [stripPrefixCI, if_pos hd]
        exact ih u' hu' (fun c hc => hg c (List.mem_cons_of_mem u0 hc)) hn
      · exact stripPrefixCI_cons_ne hd _

/-! ### The core filter theorem -/

/-- Core lemma about one `re.sub` pass: scanning for whole-word occurrences
of `w0 :: w'` in the output of a substitution pass for `v0 :: v'` finds
nothing, provided either the two words are the same word (self-cleaning) or
the input already had no occurrence (preservation).  Both words must be
nonempty lower-case ASCII words and the placeholder must not contain the
scanned word's first letter. -/
theorem hasWholeWordAux_subL_false {w0 v0 : Char} {w' v' : List Char}
    (hgw : ∀ c ∈ w0 :: w', 97 ≤ c.toNat ∧ c.toNat ≤ 122)
    (hph : ∀ c ∈ placeholderL, ¬c.toLower = w0) :
    ∀ (n : Nat) (s : List Char) (p : Bool), s.length ≤ n →
      (w0 :: w' = v0 :: v' ∨ hasWholeWordAux (w0 :: w') p s = false) →
      hasWholeWordAux (w0 :: w') p (subL (v0 :: v') p s) = false := by
  have hw0r := hgw w0 (List.mem_cons_self w0 w')
  have hw0word : isWordChar w0 = true := isWordChar_of_lower_letter hw0r.1 hw0r.2
  intro n
  induction n with
  | zero =>
    intro s p hl _
    have hs : s = [] := List.length_eq_zero.mp (Nat.le_zero.mp hl)
    subst hs
    rfl
  | succ n ih =>
    intro s p hl hyp
    match s with
    | [] => rfl
    | c :: rest =>
      have hrest : rest.length ≤ n := by
        simp only [List.length_cons] at hl
        omega
      by_cases hrep : startMatch (v0 :: v') p (c :: rest) = true
      · -- a whole-word occurrence of v is replaced at this position
        have hp : p = false := by
          cases p
          · rfl
          · rw [startMatch] at hrep
            simp at hrep
        subst hp
        rcases hstv0 : stripPrefixCI (v0 :: v') (c :: rest) with _ | tailv
        · rw [startMatch, hstv0] at hrep
          simp at hrep
        · have hbA : boundaryAfter tailv = true := by
            rw [startMatch, hstv0] at hrep
            simpa using hrep
          rw [subL_replace (by simp) hstv0 (by simp [hbA])]
          rw [hasWholeWordAux_append_nomatch placeholderL hph false _, scanPrev_placeholder]
          obtain ⟨mv, hms, hmlen, _, _⟩ := stripPrefixCI_decomp _ _ _ hstv0
          rcases tailv with _ | ⟨t0, t'⟩
          · rw [subL_nil]
            rfl
          · have ht0 : isWordChar t0 = false := by
              simpa [boundaryAfter] using hbA
            rw [subL_copy (by simp [startMatch]), ht0]
            rw [hasWholeWordAux, Bool.or_eq_false_iff]
            constructor
            · have ht0l : ¬t0.toLower = w0 := by
                intro h
                rw [isWordChar_of_toLower_eq hw0word h] at ht0
                simp at ht0
              rw [startMatch, stripPrefixCI_cons_ne ht0l _]
              simp
            · have hlens := congrArg List.length hms
              simp only [List.length_cons, List.length_append] at hlens
              have hvpos : 0 < mv.length := by
                rw [hmlen]
                simp
              have ht'len : t'.length ≤ n := by omega
              rw [ht0]
              refine ih t' false ht'len ?_
              rcases hyp with heq | hfalse
              · exact Or.inl heq
              · right
                have heq2 : (mv ++ [t0]) ++ t' = c :: rest := by
                  rw [List.append_assoc, List.singleton_append]
                  exact hms.symm
                have h2 := hasWholeWordAux_suffix_false (mv ++ [t0]) false t'
                  (by rw [heq2]; exact hfalse)
                rw [scanPrev_append] at h2
                have h3 : scanPrev (scanPrev false mv) [t0] = isWordChar t0 := rfl
                rwa [h3, ht0] at h2
      · -- no replacement at this position: the character is copied
        have hrepf : startMatch (v0 :: v') p (c :: rest) = false :=
          Bool.eq_false_iff.mpr hrep
        rw [subL_copy hrepf, hasWholeWordAux, Bool.or_eq_false_iff]
        have hyp' : w0 :: w' = v0 :: v' ∨
            hasWholeWordAux (w0 :: w') (isWordChar c) rest = false := by
          rcases hyp with heq | hfalse
          · exact Or.inl heq
          · right
            rw [hasWholeWordAux, Bool.or_eq_false_iff] at hfalse
            exact hfalse.2
        refine ⟨?_, ih rest (isWordChar c) hrest hyp'⟩
        have hsmw : startMatch (w0 :: w') p (c :: rest) = false := by
          rcases hyp with heq | hfalse
          · rw [heq]
            exact hrepf
          · rw [hasWholeWordAux, Bool.or_eq_false_iff] at hfalse
            exact hfalse.1
        cases hpv : p with
        | true =>
          rw [startMatch]
          simp
        | false =>
          subst hpv
          rcases hstw : stripPrefixCI (w0 :: w') (c :: rest) with _ | tailw
          · -- w does not match in the input here, hence not in the output
            by_cases hc0 : c.toLower = w0
            · have hiwc : isWordChar c = true := isWordChar_of_toLower_eq hw0word hc0
              have hw'rest : stripPrefixCI w' rest = none := by
                rw [stripPrefixCI, if_pos hc0] at hstw
                exact hstw
              have hw'ne : w' ≠ [] := by
                intro h
                rw [h] at hw'rest
                simp [stripPrefixCI] at hw'rest
              have hnone : stripPrefixCI w' (subL (v0 :: v') true rest) = none :=
                stripPrefixCI_subL_none rest w' hw'ne
                  (fun x hx => hgw x (List.mem_cons_of_mem w0 hx)) hw'rest
              rw [hiwc, startMatch, stripPrefixCI, if_pos hc0, hnone]
              simp
            · rw [startMatch, stripPrefixCI_cons_ne hc0 _]
              simp
          · -- w matches in the input but its trailing boundary fails;
            -- the pass copies the whole matched word, so it still fails
            have hbAw : boundaryAfter tailw = false := by
              rw [startMatch, hstw] at hsmw
              simpa using hsmw
            rcases tailw with _ | ⟨t0, t'⟩
            · simp [boundaryAfter] at hbAw
            · have ht0w : isWordChar t0 = true := by
                simpa [boundaryAfter] using hbAw
              obtain ⟨m, hms, hmlen, hre, hword⟩ := stripPrefixCI_decomp _ _ _ hstw
              have hmw : ∀ d ∈ m, isWordChar d = true := hword hgw
              rcases m with _ | ⟨c1, m'⟩
              · simp at hmlen
              · rw [List.cons_append] at hms
                injection hms with hc1 hrest2
                subst hc1
                have hiwc : isWordChar c = true := hmw c (List.mem_cons_self c m')
                rw [hiwc, hrest2]
                rw [subL_append_word m' (fun d hd => hmw d (List.mem_cons_of_mem c hd)) _]
                rw [subL_copy (by simp [startMatch])]
                have h3 : stripPrefixCI (w0 :: w')
                    (c :: (m' ++ t0 :: subL (v0 :: v') (isWordChar t0) t'))
                    = some (t0 :: subL (v0 :: v') (isWordChar t0) t') :=
                  hre (t0 :: subL (v0 :: v') (isWordChar t0) t')
                rw [startMatch, h3]
                simp [boundaryAfter, ht0w]

/-- One substitution pass for banned word `v` leaves no whole-word
occurrence of banned word `w`, when `w = v` (self-cleaning) or when `s` had
none (preservation). -/
theorem hasWholeWord_subWordS_false {w v : String} {w0 v0 : Char} {w' v' : List Char}
    (hw : w.data = w0 :: w') (hv : v.data = v0 :: v')
    (hgw : ∀ c ∈ w0 :: w', 97 ≤ c.toNat ∧ c.toNat ≤ 122)
    (hph : ∀ c ∈ placeholderL, ¬c.toLower = w0)
    (s : String) (hyp : w = v ∨ hasWholeWord w s = false) :
    hasWholeWord w (subWordS v s) = false := by
  have hyp2 : w0 :: w' = v0 :: v' ∨ hasWholeWordAux (w0 :: w') false s.data = false := by
    rcases hyp with heq | hf
    · left
      rw [← hw, ← hv, heq]
    · right
      rw [← hw]
      exact hf
  have hmain := hasWholeWordAux_subL_false hgw hph s.data.length s.data false le_rfl hyp2
  show hasWholeWordAux w.data false (subL v.data false s.data) = false
  rw [hw, hv]
  exact hmain

theorem clean_output_eq (s : String) :
    clean_output s
      = subWordS "kill" (subWordS "hate" (subWordS "shit" (subWordS "fuck" s))) := rfl

/-- The guardrail filter's output contains no case-insensitive whole-word
occurrence of any banned word. -/
theorem hasWholeWord_clean_output (s : String) :
    ∀ w ∈ banned_words, hasWholeWord w (clean_output s) = false := by
  intro w hw
  rw [clean_output_eq]
  have hfuck : ("fuck" : String).data = 'f' :: ['u', 'c', 'k'] := rfl
  have hshit : ("shit" : String).data = 's' :: ['h', 'i', 't'] := rfl
  have hhate : ("hate" : String).data = 'h' :: ['a', 't', 'e'] := rfl
  have hkill : ("kill" : String).data = 'k' :: ['i', 'l', 'l'] := rfl
  rcases List.mem_cons.mp hw with rfl | hw
  · refine hasWholeWord_subWordS_false hfuck hkill (by decide) (by decide) _ (Or.inr ?_)
    refine hasWholeWord_subWordS_false hfuck hhate (by decide) (by decide) _ (Or.inr ?_)
    refine hasWholeWord_subWordS_false hfuck hshit (by decide) (by decide) _ (Or.inr ?_)
    exact hasWholeWord_subWordS_false hfuck hfuck (by decide) (by decide) _ (Or.inl rfl)
  rcases List.mem_cons.mp hw with rfl | hw
  · refine hasWholeWord_subWordS_false hshit hkill (by decide) (by decide) _ (Or.inr ?_)
    refine hasWholeWord_subWordS_false hshit hhate (by decide) (by decide) _ (Or.inr ?_)
    exact hasWholeWord_subWordS_false hshit hshit (by decide) (by decide) _ (Or.inl rfl)
  rcases List.mem_cons.mp hw with rfl | hw
  · refine hasWholeWord_subWordS_false hhate hkill (by decide) (by decide) _ (Or.inr ?_)
    exact hasWholeWord_subWordS_false hhate hhate (by decide) (by decide) _ (Or.inl rfl)
  rcases List.mem_cons.mp hw with rfl | hw
  · exact hasWholeWord_subWordS_false hkill hkill (by decide) (by decide) _ (Or.inl rfl)
  exact absurd hw (List.not_mem_nil w)

/-- A pass over text with no whole-word occurrence is the identity: every
character is copied, nothing is replaced. -/
theorem subL_id_of_false {w : List Char} :
    ∀ (s : List Char) (p : Bool), hasWholeWordAux w p s = false → subL w p s = s
  | [], p, _ => subL_nil w p
  | c :: rest, p, h => by
      rw [hasWholeWordAux, Bool.or_eq_false_iff] at h
      rw [subL_copy h.1, subL_id_of_false rest (isWordChar c) h.2]

theorem subWordS_id {w s : String} (h : hasWholeWord w s = false) : subWordS w s = s := by
  show (⟨subL w.data false s.data⟩ : String) = s
  rw [subL_id_of_false s.data false h]

/-- On text free of whole-word banned occurrences the guardrail filter is
the identity — in particular, occurrences embedded inside longer words are
left unmodified. -/
theorem clean_output_id {s : String} (h : ∀ w ∈ banned_words, hasWholeWord w s = false) :
    clean_output s = s := by
  rw [clean_output_eq,
    subWordS_id (h "fuck" (by decide)),
    subWordS_id (h "shit" (by decide)),
    subWordS_id (h "hate" (by decide)),
    subWordS_id (h "kill" (by decide))]

/-! ### Post Splitter lemmas -/

theorem length_dropWhile_le (p : Char → Bool) : ∀ l : List Char,
    (l.dropWhile p).length ≤ l.length
  | [] => Nat.le_refl 0
  | c :: l => by
      rw [List.dropWhile_cons]
      split
      · exact Nat.le_trans (length_dropWhile_le p l) (by simp)
      · exact Nat.le_refl _

theorem matchMarker_length : ∀ (l rem : List Char), matchMarker l = some rem →
    rem.length < l.length := by
  intro l rem h
  match l with
  | [] => exact absurd h (by simp [matchMarker])
  | c :: rest =>
    unfold matchMarker at h
    dsimp only at h
    by_cases hc : c = '\n'
    · rw [if_pos hc] at h
      cases hws : rest.dropWhile isSpaceChar with
      | nil => rw [hws] at h; exact absurd h (by simp)
      | cons d ds =>
        rw [hws] at h
        dsimp only at h
        by_cases hd : isDigitChar d = true
        · rw [if_pos hd] at h
          cases hds : (d :: ds).dropWhile isDigitChar with
          | nil => rw [hds] at h; exact absurd h (by simp)
          | cons t rem2 =>
            rw [hds] at h
            dsimp only at h
            by_cases ht : (t = '.' || t = ')') = true
            · rw [if_pos ht] at h
              have hrem : rem2 = rem := by injection h
              have h1 : (d :: ds).length ≤ rest.length := by
                rw [← hws]; exact length_dropWhile_le _ _
              have h2 : (t :: rem2).length ≤ (d :: ds).length := by
                rw [← hds]; exact length_dropWhile_le _ _
              subst hrem
              simp only [List.length_cons] at h1 h2 ⊢
              omega
            · rw [if_neg ht] at h; exact absurd h (by simp)
        · rw [if_neg hd] at h; exact absurd h (by simp)
    · rw [if_neg hc] at h; exact absurd h (by simp)

theorem matchMarker_cons_ne {c : Char} (hc : ¬c = '\n') (rest : List Char) :
    matchMarker (c :: rest) = none := by
  unfold matchMarker
  dsimp only
  rw [if_neg hc]

theorem splitAuxF_fuel_eq : ∀ (f g : Nat) (cur l : List Char), l.length ≤ f → l.length ≤ g →
    splitAuxF f cur l = splitAuxF g cur l := by
  intro f
  induction f with
  | zero =>
    intro g cur l hf _
    have hl : l = [] := List.length_eq_zero.mp (Nat.le_zero.mp hf)
    subst hl
    cases g <;> rfl
  | succ f ih =>
    intro g cur l hf hg
    match l with
    | [] => cases g <;> rfl
    | c :: rest =>
      match g with
      | 0 => simp at hg
      | g + 1 =>
        have hrf : rest.length ≤ f := by simp only [List.length_cons] at hf; omega
        have hrg : rest.length ≤ g := by simp only [List.length_cons] at hg; omega
        simp only [splitAuxF]
        cases hm : matchMarker (c :: rest) with
        | none => exact ih g (c :: cur) rest hrf hrg
        | some rem =>
          have hlen := matchMarker_length (c :: rest) rem hm
          simp only [List.length_cons] at hlen
          exact congrArg (cur.reverse :: ·) (ih g [] rem (by omega) (by omega))

theorem splitL_nil (cur : List Char) : splitL cur [] = [cur.reverse] := rfl

/-- Recursion equation of the re.split scan, match case: the accumulated
segment is emitted and scanning restarts after the matched delimiter. -/
theorem splitL_cons_match {c : Char} {rest rem : List Char} (cur : List Char)
    (hm : matchMarker (c :: rest) = some rem) :
    splitL cur (c :: rest) = cur.reverse :: splitL [] rem := by
  have hlen := matchMarker_length (c :: rest) rem hm
  simp only [List.length_cons] at hlen
  show splitAuxF (rest.length + 1) cur (c :: rest) = _
  simp only [splitAuxF, hm]
  exact congrArg (cur.reverse :: ·) (splitAuxF_fuel_eq rest.length rem.length [] rem (by omega) le_rfl)

/-- Recursion equation of the re.split scan, no-match case: the character
joins the current segment. -/
theorem splitL_cons_nomatch {c : Char} {rest : List Char} (cur : List Char)
    (hm : matchMarker (c :: rest) = none) :
    splitL cur (c :: rest) = splitL (c :: cur) rest := by
  show splitAuxF (rest.length + 1) cur (c :: rest) = _
  simp only [splitAuxF, hm]
  rfl

/-- Scanning a newline-free preamble followed by a delimiter match: the
whole preamble becomes the first emitted segment. -/
theorem splitL_preamble : ∀ (pre : List Char), (∀ c ∈ pre, ¬c = '\n') →
    ∀ {l rem : List Char}, matchMarker l = some rem → ∀ (cur : List Char),
      splitL cur (pre ++ l) = (cur.reverse ++ pre) :: splitL [] rem
  | [], _, l, rem, hm, cur => by
      match l, hm with
      | c :: rest, hm =>
        rw [List.nil_append, splitL_cons_match cur hm]
        simp
  | d :: pre, h, l, rem, hm, cur => by
      rw [List.cons_append,
        splitL_cons_nomatch cur (matchMarker_cons_ne (h d (List.mem_cons_self d pre)) _),
        splitL_preamble pre (fun x hx => h x (List.mem_cons_of_mem d hx)) hm (d :: cur)]
      simp

/-! ### `strip` lemmas -/

theorem dropWhile_idem {p : Char → Bool} (l : List Char) :
    (l.dropWhile p).dropWhile p = l.dropWhile p := by
  cases h : l.dropWhile p with
  | nil => rfl
  | cons a t =>
    have ha : p a = false := by
      have h2 := List.head?_dropWhile_not p l
      rw [h] at h2
      simpa using h2
    rw [List.dropWhile_cons, ha]
    simp

theorem dropWhile_append_ne {p : Char → Bool} {a : Char} (ha : p a = false)
    (X : List Char) : ∃ Z, (X ++ [a]).dropWhile p = Z ++ [a] := by
  rw [List.dropWhile_append]
  split
  · exact ⟨[], by simp [List.dropWhile_cons, ha]⟩
  · exact ⟨X.dropWhile p, rfl⟩

theorem stripL_idem (l : List Char) : stripL (stripL l) = stripL l := by
  cases hA0 : l.dropWhile isSpaceChar with
  | nil =>
    have h1 : stripL l = [] := by
      unfold stripL
      rw [hA0]
      rfl
    rw [h1]
    rfl
  | cons a A2 =>
    have ha : isSpaceChar a = false := by
      have h2 := List.head?_dropWhile_not isSpaceChar l
      rw [hA0] at h2
      simpa using h2
    obtain ⟨Z, hZ⟩ : ∃ Z, (a :: A2).reverse.dropWhile isSpaceChar = Z ++ [a] := by
      rw [List.reverse_cons]
      exact dropWhile_append_ne ha A2.reverse
    have hstrip : stripL l = a :: Z.reverse := by
      unfold stripL
      rw [hA0, hZ]
      simp
    rw [hstrip]
    have hBidem : (Z ++ [a]).dropWhile isSpaceChar = Z ++ [a] := by
      conv_lhs => rw [← hZ]
      rw [dropWhile_idem, hZ]
    unfold stripL
    rw [List.dropWhile_cons, ha]
    simp only [Bool.false_eq_true, if_false]
    rw [List.reverse_cons, List.reverse_reverse, hBidem]
    simp

theorem py_strip_idem (s : String) : py_strip (py_strip s) = py_strip s := by
  show (⟨stripL (stripL s.data)⟩ : String) = ⟨stripL s.data⟩
  rw [stripL_idem]

/-- Every kept fragment is longer than 30 characters and is its own strip
(it came out of `p.strip()`). -/
theorem kept_fragments_mem {raw p : String} (h : p ∈ kept_fragments raw) :
    30 < p.length ∧ py_strip p = p := by
  unfold kept_fragments at h
  rw [List.mem_filter] at h
  obtain ⟨hmem, hlen⟩ := h
  rw [List.mem_map] at hmem
  obtain ⟨q, _, rfl⟩ := hmem
  exact ⟨by simpa using hlen, py_strip_idem q⟩

/-! ### Pipeline-shape lemmas -/

/-- If the plan call raises, the whole pipeline raises that error (no later
step runs). -/
theorem generate_posts_plan_error {complete : String → Except String String}
    {topic tone audience length language : String} {hashtags cta : Bool} {post_count : Nat}
    {e : String}
    (h1 : complete (plan_prompt topic tone audience language post_count) = Except.error e) :
    generate_posts complete topic tone audience length language hashtags cta post_count
      = Except.error e := by
  unfold generate_posts
  rw [h1]
  rfl

/-- Unfolding of the pipeline once the plan call has succeeded. -/
theorem generate_posts_plan_ok {complete : String → Except String String}
    {topic tone audience length language : String} {hashtags cta : Bool} {post_count : Nat}
    {plan : String}
    (h1 : complete (plan_prompt topic tone audience language post_count) = Except.ok plan) :
    generate_posts complete topic tone audience length language hashtags cta post_count
      = Except.bind (complete (gen_prompt plan length tone language post_count))
          (fun posts_raw =>
            if (hashtags || cta) = true then
              Except.bind (complete (extras_prompt topic hashtags cta))
                (fun extras =>
                  Except.ok ((split_posts posts_raw post_count).map clean_output, extras))
            else
              Except.ok ((split_posts posts_raw post_count).map clean_output, "")) := by
  unfold generate_posts
  rw [h1]
  rfl

/-- If the draft call raises, the whole pipeline raises that error. -/
theorem generate_posts_gen_error {complete : String → Except String String}
    {topic tone audience length language : String} {hashtags cta : Bool} {post_count : Nat}
    {plan e : String}
    (h1 : complete (plan_prompt topic tone audience language post_count) = Except.ok plan)
    (h2 : complete (gen_prompt plan length tone language post_count) = Except.error e) :
    generate_posts complete topic tone audience length language hashtags cta post_count
      = Except.error e := by
  rw [generate_posts_plan_ok h1, h2]
  rfl

/-- Inversion of a successful pipeline run: both generation calls succeeded,
the posts are the split-filter-truncate-clean of the draft output, and the
extras value is the raw extras-call output when a flag was set, the empty
string otherwise. -/
theorem generate_posts_ok_inv {complete : String → Except String String}
    {topic tone audience length language : String} {hashtags cta : Bool} {post_count : Nat}
    {ps : List String} {ex : String}
    (h : generate_posts complete topic tone audience length language hashtags cta post_count
      = Except.ok (ps, ex)) :
    ∃ plan posts_raw,
      complete (plan_prompt topic tone audience language post_count) = Except.ok plan ∧
      complete (gen_prompt plan length tone language post_count) = Except.ok posts_raw ∧
      ps = (split_posts posts_raw post_count).map clean_output ∧
      ((hashtags || cta) = true → complete (extras_prompt topic hashtags cta) = Except.ok ex) ∧
      ((hashtags || cta) = false → ex = "") := by
  cases h1 : complete (plan_prompt topic tone audience language post_count) with
  | error e =>
    rw [generate_posts_plan_error h1] at h
    exact Except.noConfusion h
  | ok plan =>
    rw [generate_posts_plan_ok h1] at h
    cases h2 : complete (gen_prompt plan length tone language post_count) with
    | error e =>
      rw [h2] at h
      have h5 : (Except.error e : Except String (List String × String)) = Except.ok (ps, ex) := h
      exact Except.noConfusion h5
    | ok posts_raw =>
      rw [h2] at h
      have h4 : (if (hashtags || cta) = true then
            Except.bind (complete (extras_prompt topic hashtags cta))
              (fun extras =>
                Except.ok ((split_posts posts_raw post_count).map clean_output, extras))
          else
            Except.ok ((split_posts posts_raw post_count).map clean_output, ""))
          = Except.ok (ps, ex) := h
      by_cases hflag : (hashtags || cta) = true
      · rw [if_pos hflag] at h4
        cases h3 : complete (extras_prompt topic hashtags cta) with
        | error e =>
          rw [h3] at h4
          have h5 : (Except.error e : Except String (List String × String))
              = Except.ok (ps, ex) := h4
          exact Except.noConfusion h5
        | ok ex2 =>
          rw [h3] at h4
          have h5 : Except.ok ((split_posts posts_raw post_count).map clean_output, ex2)
              = Except.ok (ps, ex) := h4
          injection h5 with h6
          rw [Prod.mk.injEq] at h6
          obtain ⟨h7, h8⟩ := h6
          refine ⟨plan, posts_raw, rfl, h2, h7.symm, fun _ => ?_, fun hf => ?_⟩
          · rw [h8]
          · rw [hf] at hflag
            exact Bool.noConfusion hflag
      · rw [if_neg hflag] at h4
        have h5 : Except.ok ((split_posts posts_raw post_count).map clean_output, "")
            = Except.ok (ps, ex) := h4
        injection h5 with h6
        rw [Prod.mk.injEq] at h6
        obtain ⟨h7, h8⟩ := h6
        exact ⟨plan, posts_raw, rfl, h2, h7.symm, fun ht => absurd ht hflag,
          fun _ => h8.symm⟩

/-- A successful pipeline run with both flags off returns the empty string
as `extras` (the initialisation `extras = ""` of app.py line 91 is never
overwritten). -/
theorem generate_posts_extras_empty {complete : String → Except String String}
    {topic tone audience length language : String} {hashtags cta : Bool} {post_count : Nat}
    {plan posts_raw : String}
    (h1 : complete (plan_prompt topic tone audience language post_count) = Except.ok plan)
    (h2 : complete (gen_prompt plan length tone language post_count) = Except.ok posts_raw)
    (hflag : (hashtags || cta) = false) :
    generate_posts complete topic tone audience length language hashtags cta post_count
      = Except.ok ((split_posts posts_raw post_count).map clean_output, "") := by
  rw [generate_posts_plan_ok h1, h2]
  show (if (hashtags || cta) = true then
        Except.bind (complete (extras_prompt topic hashtags cta))
          (fun extras =>
            Except.ok ((split_posts posts_raw post_count).map clean_output, extras))
      else
        Except.ok ((split_posts posts_raw post_count).map clean_output, "")) = _
  rw [if_neg (by rw [hflag]; exact Bool.noConfusion)]

/-! ### Handler and history lemmas -/

theorem handle_generate_empty_topic {complete : String → Except String String}
    {r : GenRequest} (history : List (List String)) (h : r.topic = "") :
    handle_generate complete r history = (history, RunOutcome.warned) := by
  unfold handle_generate
  rw [if_pos h]

theorem handle_generate_error {complete : String → Except String String}
    {r : GenRequest} {e : String} (history : List (List String)) (ht : ¬r.topic = "")
    (h : generate_posts complete r.topic r.tone r.audience r.length r.language
      r.hashtags r.cta r.post_count = Except.error e) :
    handle_generate complete r history = (history, RunOutcome.errored e) := by
  unfold handle_generate
  rw [if_neg ht, h]

theorem handle_generate_ok {complete : String → Except String String}
    {r : GenRequest} {ps : List String} {ex : String} (history : List (List String))
    (ht : ¬r.topic = "")
    (h : generate_posts complete r.topic r.tone r.audience r.length r.language
      r.hashtags r.cta r.post_count = Except.ok (ps, ex)) :
    handle_generate complete r history = (history ++ [ps], RunOutcome.ok ps ex) := by
  unfold handle_generate
  rw [if_neg ht, h]

theorem runAll_nil (complete : String → Except String String)
    (history : List (List String)) : runAll complete [] history = history := rfl

theorem runAll_cons (complete : String → Except String String) (r : GenRequest)
    (rs : List GenRequest) (history : List (List String)) :
    runAll complete (r :: rs) history
      = runAll complete rs (handle_generate complete r history).1 := rfl

/-- After a sequence of all-successful button presses, the history has grown
by exactly one entry per press. -/
theorem runAll_length (complete : String → Except String String) :
    ∀ (reqs : List GenRequest) (history : List (List String)),
      (∀ r ∈ reqs, runSuccess complete r) →
      (runAll complete reqs history).length = history.length + reqs.length := by
  intro reqs
  induction reqs with
  | nil => intro history _; rfl
  | cons r rs ih =>
    intro history hall
    obtain ⟨ht, ps, ex, hok⟩ := hall r (List.mem_cons_self r rs)
    rw [runAll_cons, handle_generate_ok history ht hok,
      ih _ (fun x hx => hall x (List.mem_cons_of_mem r hx))]
    simp only [List.length_append, List.length_cons, List.length_nil]
    omega

/-- History cleanliness invariant: starting from a history whose entries are
all guardrail-clean, any sequence of button presses preserves that every
stored post is free of whole-word banned occurrences (the filter runs inside
the pipeline, before the append). -/
theorem runAll_clean (complete : String → Except String String) :
    ∀ (reqs : List GenRequest) (history : List (List String)),
      (∀ entry ∈ history, ∀ p ∈ entry, ∀ w ∈ banned_words, hasWholeWord w p = false) →
      ∀ entry ∈ runAll complete reqs history, ∀ p ∈ entry, ∀ w ∈ banned_words,
        hasWholeWord w p = false := by
  intro reqs
  induction reqs with
  | nil => intro history hinv; exact hinv
  | cons r rs ih =>
    intro history hinv
    rw [runAll_cons]
    apply ih
    by_cases ht : r.topic = ""
    · rw [handle_generate_empty_topic history ht]
      exact hinv
    · cases hgen : generate_posts complete r.topic r.tone r.audience r.length r.language
          r.hashtags r.cta r.post_count with
      | error e =>
        rw [handle_generate_error history ht hgen]
        exact hinv
      | ok pe =>
        obtain ⟨ps, ex⟩ := pe
        rw [handle_generate_ok history ht hgen]
        intro entry hentry p hp w hw
        rcases List.mem_append.mp hentry with hold | hnew
        · exact hinv entry hold p hp w hw
        · rw [List.mem_singleton] at hnew
          subst hnew
          obtain ⟨plan, posts_raw, _, _, hps, _, _⟩ := generate_posts_ok_inv hgen
          rw [hps] at hp
          rw [List.mem_map] at hp
          obtain ⟨q, _, rfl⟩ := hp
          exact hasWholeWord_clean_output q w hw

/-! ### Claim theorems -/

/-- C1 counterexample: run the pipeline with `wantHashtags = wantCTA = false`
(collaborator returning `"ok"` everywhere).  The result's extras field IS
the empty string `""` — the code initialises `extras = ""` and never uses an
absent value — refuting the claim that extras is then "an absent value
distinguishable from the empty string, not an empty string". -/
theorem c1_extras_counterexample :
    generate_posts (fun _ => Except.ok "ok") "t" "Professional" "" "Short" "English"
      false false 3 = Except.ok ([], "") := rfl

/-- C1 (amended): on every successful pipeline run, the extras value is the
raw output of the extras call iff `wantHashtags` or `wantCTA` was set; when
neither flag is set, extras is the empty string — absence is encoded by the
empty string (which the caller tests for truthiness), not by a distinct
absent value. -/
theorem c1_extras_amended {complete : String → Except String String}
    {topic tone audience length language : String} {hashtags cta : Bool} {post_count : Nat}
    {ps : List String} {ex : String}
    (h : generate_posts complete topic tone audience length language hashtags cta post_count
      = Except.ok (ps, ex)) :
    ((hashtags || cta) = true → complete (extras_prompt topic hashtags cta) = Except.ok ex) ∧
    ((hashtags || cta) = false → ex = "") := by
  obtain ⟨_, _, _, _, _, h4, h5⟩ := generate_posts_ok_inv h
  exact ⟨h4, h5⟩

/-- C1 witness: the amended claim evaluated on a concrete flagless run. -/
theorem c1_extras_witness :
    ((false || false) = true →
      (fun _ => (Except.ok "ok" : Except String String)) (extras_prompt "t" false false)
        = Except.ok "") ∧
    ((false || false) = false → ("" : String) = "") :=
  @c1_extras_amended (fun _ => Except.ok "ok") "t" "Professional" "" "Short" "English"
    false false 3 [] "" rfl

/-- C2: for every input string, the Text Filter's output contains no
case-insensitive whole-word occurrence of any banned term; and an input all
of whose banned-term occurrences are embedded inside longer words (no
whole-word occurrence) is left unmodified. -/
theorem c2_text_filter (s : String) :
    (∀ w ∈ banned_words, hasWholeWord w (clean_output s) = false) ∧
    ((∀ w ∈ banned_words, hasWholeWord w s = false) → clean_output s = s) :=
  ⟨hasWholeWord_clean_output s, fun h => clean_output_id h⟩

/-- C2 witness: a banned word is removed as a whole word but preserved
inside a longer word. -/
theorem c2_text_filter_witness :
    hasWholeWord "shit" (clean_output "bullshit Shit skilled") = false ∧
    clean_output "bullshit skilled" = "bullshit skilled" :=
  ⟨(c2_text_filter "bullshit Shit skilled").1 "shit" (by decide),
   (c2_text_filter "bullshit skilled").2 (by decide)⟩

/-- C3: if the raw draft text yields at least `post_count` fragments of
trimmed length > 30, the Post Splitter returns exactly `post_count` entries
and they are a prefix (hence in original order) of the kept fragments; and
no fragment of trimmed length ≤ 30 ever appears in the result. -/
theorem c3_post_splitter (posts_raw : String) (post_count : Nat) :
    (post_count ≤ (kept_fragments posts_raw).length →
      (split_posts posts_raw post_count).length = post_count ∧
      split_posts posts_raw post_count = (kept_fragments posts_raw).take post_count) ∧
    (∀ p ∈ split_posts posts_raw post_count, ¬(py_strip p).length ≤ 30) := by
  constructor
  · intro hn
    refine ⟨?_, rfl⟩
    show ((kept_fragments posts_raw).take post_count).length = post_count
    rw [List.length_take]
    omega
  · intro p hp
    have hp2 : p ∈ kept_fragments posts_raw := List.take_subset _ _ hp
    obtain ⟨hlen, hstrip⟩ := kept_fragments_mem hp2
    rw [hstrip]
    omega

/-- C3 witness: the splitter claim evaluated on a concrete two-segment
draft. -/
theorem c3_post_splitter_witness :
    (split_posts
        "h\n1. aaaaaaaaaaaaaaaaaaaaaaaaaaaaaaaaaaa\n2. bbbbbbbbbbbbbbbbbbbbbbbbbbbbbbbbbbb"
        2).length = 2 ∧
    ¬(py_strip "aaaaaaaaaaaaaaaaaaaaaaaaaaaaaaaaaaa").length ≤ 30 :=
  ⟨((c3_post_splitter
      "h\n1. aaaaaaaaaaaaaaaaaaaaaaaaaaaaaaaaaaa\n2. bbbbbbbbbbbbbbbbbbbbbbbbbbbbbbbbbbb"
      2).1 (by decide)).1,
   (c3_post_splitter
      "h\n1. aaaaaaaaaaaaaaaaaaaaaaaaaaaaaaaaaaa\n2. bbbbbbbbbbbbbbbbbbbbbbbbbbbbbbbbbbb"
      2).2 "aaaaaaaaaaaaaaaaaaaaaaaaaaaaaaaaaaa" (by decide)⟩

/-- C4: after N all-successful runs starting from the empty session history,
the history holds N entries, and the `listPast` view (`history[:-1]`) is
exactly the first N − 1 of them in append order — the Nth (most recent)
entry is excluded. -/
theorem c4_history_exclusion (complete : String → Except String String)
    (reqs : List GenRequest) (hall : ∀ r ∈ reqs, runSuccess complete r) :
    (runAll complete reqs []).length = reqs.length ∧
    listPast (runAll complete reqs [])
      = (runAll complete reqs []).take (reqs.length - 1) := by
  have hlen := runAll_length complete reqs [] hall
  simp only [List.length_nil, Nat.zero_add] at hlen
  refine ⟨hlen, ?_⟩
  show (runAll complete reqs []).dropLast = _
  rw [List.dropLast_eq_take, hlen]

/-- C4 witness: one successful run gives a one-entry history whose
`listPast` view is empty. -/
theorem c4_history_exclusion_witness :
    (runAll (fun _ => Except.ok "x\n1. aaaaaaaaaaaaaaaaaaaaaaaaaaaaaaaaaaa")
        [⟨"t", "Professional", "", "Short", "English", true, false, 3⟩] []).length = 1 ∧
    listPast (runAll (fun _ => Except.ok "x\n1. aaaaaaaaaaaaaaaaaaaaaaaaaaaaaaaaaaa")
        [⟨"t", "Professional", "", "Short", "English", true, false, 3⟩] [])
      = (runAll (fun _ => Except.ok "x\n1. aaaaaaaaaaaaaaaaaaaaaaaaaaaaaaaaaaa")
        [⟨"t", "Professional", "", "Short", "English", true, false, 3⟩] []).take 0 := by
  have h := c4_history_exclusion (fun _ => Except.ok "x\n1. aaaaaaaaaaaaaaaaaaaaaaaaaaaaaaaaaaa")
    [⟨"t", "Professional", "", "Short", "English", true, false, 3⟩] ?_
  · exact h
  · intro r hr
    rw [List.mem_singleton] at hr
    subst hr
    exact ⟨by decide, ["aaaaaaaaaaaaaaaaaaaaaaaaaaaaaaaaaaa"],
      "x\n1. aaaaaaaaaaaaaaaaaaaaaaaaaaaaaaaaaaa", rfl⟩

/-- C5: a run in which a collaborator call fails produces no posts — the
handler surfaces exactly the error outcome and leaves the history unchanged
(no partial entry); moreover a plan-step failure already aborts the whole
pipeline with that error. -/
theorem c5_collaborator_error (complete : String → Except String String)
    (r : GenRequest) (history : List (List String)) (e : String) (ht : ¬r.topic = "") :
    (generate_posts complete r.topic r.tone r.audience r.length r.language
        r.hashtags r.cta r.post_count = Except.error e →
      handle_generate complete r history = (history, RunOutcome.errored e)) ∧
    (complete (plan_prompt r.topic r.tone r.audience r.language r.post_count)
        = Except.error e →
      generate_posts complete r.topic r.tone r.audience r.length r.language
        r.hashtags r.cta r.post_count = Except.error e) :=
  ⟨fun h => handle_generate_error history ht h, fun h => generate_posts_plan_error h⟩

/-- C5 witness: a collaborator that always raises leaves a prior history
entry untouched and surfaces the error. -/
theorem c5_collaborator_error_witness :
    handle_generate (fun _ => Except.error "boom")
        ⟨"t", "Professional", "", "Short", "English", true, true, 3⟩ [["old"]]
      = ([["old"]], RunOutcome.errored "boom") ∧
    generate_posts (fun _ => Except.error "boom") "t" "Professional" "" "Short" "English"
        true true 3 = Except.error "boom" := by
  have h := c5_collaborator_error (fun _ => Except.error "boom")
    ⟨"t", "Professional", "", "Short", "English", true, true, 3⟩ [["old"]] "boom" (by decide)
  exact ⟨h.1 rfl, h.2 rfl⟩

/-- C6: with an empty topic the handler only warns: the history is returned
unchanged and the outcome is `warned`, for EVERY collaborator function —
the right-hand side does not mention `complete`, so no external call is
attempted and the pipeline is not invoked. -/
theorem c6_empty_topic_validation (complete : String → Except String String)
    (r : GenRequest) (history : List (List String)) (h : r.topic = "") :
    handle_generate complete r history = (history, RunOutcome.warned) :=
  handle_generate_empty_topic history h

/-- C6 witness: empty-topic press with a collaborator that would raise. -/
theorem c6_empty_topic_validation_witness :
    handle_generate (fun _ => Except.error "never called")
        ⟨"", "Professional", "", "Short", "English", true, true, 3⟩ [["old"]]
      = ([["old"]], RunOutcome.warned) :=
  c6_empty_topic_validation (fun _ => Except.error "never called")
    ⟨"", "Professional", "", "Short", "English", true, true, 3⟩ [["old"]] rfl

/-- C7: every post of a successful pipeline run is the Text Filter's output
of a split fragment, hence free of whole-word banned occurrences; and every
entry ever stored in the session history (any sequence of button presses
from the empty history) consists of such posts only — the filter runs
before the append. -/
theorem c7_guardrail_before_store :
    (∀ (complete : String → Except String String)
      (topic tone audience length language : String) (hashtags cta : Bool)
      (post_count : Nat) (ps : List String) (ex : String),
      generate_posts complete topic tone audience length language hashtags cta post_count
        = Except.ok (ps, ex) →
      ∀ p ∈ ps, ∀ w ∈ banned_words, hasWholeWord w p = false) ∧
    (∀ (complete : String → Except String String) (reqs : List GenRequest),
      ∀ entry ∈ runAll complete reqs [], ∀ p ∈ entry, ∀ w ∈ banned_words,
        hasWholeWord w p = false) := by
  constructor
  · intro complete topic tone audience length language hashtags cta post_count ps ex
      h p hp w hw
    obtain ⟨_, _, _, _, hps, _, _⟩ := generate_posts_ok_inv h
    rw [hps] at hp
    rw [List.mem_map] at hp
    obtain ⟨q, _, rfl⟩ := hp
    exact hasWholeWord_clean_output q w hw
  · intro complete reqs
    exact runAll_clean complete reqs []
      (fun entry h => absurd h (List.not_mem_nil entry))

/-- C7 witness: the stored post of a concrete successful run contains no
whole-word banned occurrence. -/
theorem c7_guardrail_before_store_witness :
    hasWholeWord "shit" "aaaaaaaaaaaaaaaaaaaaaaaaaaaaaaaaaaa [removed]" = false :=
  c7_guardrail_before_store.1
    (fun _ => Except.ok "x\n1. aaaaaaaaaaaaaaaaaaaaaaaaaaaaaaaaaaa shit")
    "t" "Professional" "" "Short" "English" true false 3
    ["aaaaaaaaaaaaaaaaaaaaaaaaaaaaaaaaaaa [removed]"]
    "x\n1. aaaaaaaaaaaaaaaaaaaaaaaaaaaaaaaaaaa shit" rfl
    "aaaaaaaaaaaaaaaaaaaaaaaaaaaaaaaaaaa [removed]" (by decide) "shit" (by decide)

/-- C8: the Text Filter is idempotent — filtering already-filtered text is
the identity, so no double replacement of the placeholder occurs. -/
theorem c8_filter_idempotent (s : String) :
    clean_output (clean_output s) = clean_output s :=
  clean_output_id (hasWholeWord_clean_output s)

/-- C9: the extras value is never passed through the Text Filter: whenever
the extras step executes (some flag set), the returned extras equals the
collaborator's raw output verbatim; in particular if it contains a
whole-word banned term, it is not equal to its own filtering — the banned
term appears unmodified. -/
theorem c9_extras_unfiltered {complete : String → Except String String}
    {topic tone audience length language : String} {hashtags cta : Bool} {post_count : Nat}
    {ps : List String} {ex : String}
    (hflag : (hashtags || cta) = true)
    (h : generate_posts complete topic tone audience length language hashtags cta post_count
      = Except.ok (ps, ex)) :
    complete (extras_prompt topic hashtags cta) = Except.ok ex ∧
    (∀ w ∈ banned_words, hasWholeWord w ex = true → ¬clean_output ex = ex) := by
  obtain ⟨_, _, _, _, _, h4, _⟩ := generate_posts_ok_inv h
  refine ⟨h4 hflag, ?_⟩
  intro w hw hww heq
  have hclean := hasWholeWord_clean_output ex w hw
  rw [heq] at hclean
  rw [hclean] at hww
  exact Bool.noConfusion hww

/-- C9 witness: a banned word returned by the extras call survives verbatim
in the result. -/
theorem c9_extras_unfiltered_witness :
    (fun _ => (Except.ok "shit happens" : Except String String))
        (extras_prompt "t" true false) = Except.ok "shit happens" ∧
    (∀ w ∈ banned_words, hasWholeWord w "shit happens" = true →
      ¬clean_output "shit happens" = "shit happens") :=
  @c9_extras_unfiltered (fun _ => Except.ok "shit happens") "t" "Professional" "" "Short"
    "English" true false 3 [] "shit happens" rfl rfl

/-- C10: the splitter's delimiter pattern requires a preceding newline:
`matchMarker` never fires on a non-newline first character, so a numbered
marker at the very start of the text is not a delimiter (it stays inside the
first fragment); and a newline-free preamble before the first delimiter is
the first raw fragment and becomes the first result entry — counting toward
`post_count` — whenever its trimmed length exceeds 30. -/
theorem c10_newline_markers :
    (∀ (c : Char) (rest : List Char), ¬c = '\n' → matchMarker (c :: rest) = none) ∧
    (∀ (pre l rem : List Char) (post_count : Nat),
      (∀ c ∈ pre, ¬c = '\n') → matchMarker l = some rem →
      (re_split_numbered ⟨pre ++ l⟩).head? = some ⟨pre⟩ ∧
      (30 < (stripL pre).length → 0 < post_count →
        (split_posts ⟨pre ++ l⟩ post_count).head? = some ⟨stripL pre⟩)) := by
  constructor
  · intro c rest hc
    exact matchMarker_cons_ne hc rest
  · intro pre l rem post_count hpre hm
    have hsplit : splitL [] (pre ++ l) = pre :: splitL [] rem := by
      have h := splitL_preamble pre hpre hm []
      simpa using h
    have hsp : re_split_numbered ⟨pre ++ l⟩
        = (⟨pre⟩ : String) :: (splitL [] rem).map (fun x => (⟨x⟩ : String)) := by
      show (splitL [] (pre ++ l)).map _ = _
      rw [hsplit, List.map_cons]
    constructor
    · rw [hsp]
      rfl
    · intro hlen hpos
      have hk2 : kept_fragments ⟨pre ++ l⟩
          = (⟨stripL pre⟩ : String) :: List.filter (fun p => 30 < p.length)
              (List.map py_strip ((splitL [] rem).map (fun x => (⟨x⟩ : String)))) := by
        show List.filter _ (List.map py_strip (re_split_numbered ⟨pre ++ l⟩)) = _
        rw [hsp, List.map_cons, List.filter_cons_of_pos]
        · rfl
        · exact decide_eq_true hlen
      show ((kept_fragments ⟨pre ++ l⟩).take post_count).head? = some ⟨stripL pre⟩
      rw [hk2]
      obtain ⟨m, rfl⟩ : ∃ m, post_count = m + 1 := ⟨post_count - 1, by omega⟩
      rw [List.take_succ_cons]
      rfl

/-- C10 witness: a preamble that itself starts with a numbered marker stays
attached and is the first returned entry. -/
theorem c10_newline_markers_witness :
    (re_split_numbered
        ⟨"1) intro preamble that is quite long indeed".data ++ "\n2. tail".data⟩).head?
      = some ⟨"1) intro preamble that is quite long indeed".data⟩ ∧
    (split_posts
        ⟨"1) intro preamble that is quite long indeed".data ++ "\n2. tail".data⟩ 3).head?
      = some ⟨stripL "1) intro preamble that is quite long indeed".data⟩ := by
  have h := c10_newline_markers.2 "1) intro preamble that is quite long indeed".data
    "\n2. tail".data " tail".data 3 (by decide) (by decide)
  exact ⟨h.1, h.2 (by decide) (by decide)⟩
